import Mathlib

/-
Verification of the skynet-review CLI core against its specification.

The development shallowly embeds the two core components of the repository:

* `analyze_stream` (src/Cli/src/api_client.rs, lines 124-167): the SSE stream
  ingestion loop.  Byte chunks are modelled as `List Nat` (byte values); a
  received chunk is either `Except.ok bytes` or `Except.error msg` (a transport
  read error, `chunk.map_err` in the source).  Strings are modelled as
  `List Char`.  The external `serde_json::from_str::<SecurityFinding>` decoder
  is a parameter `dec : List Char → Option SecurityFinding` of the embedding
  (it is a third-party crate, not code of this repository); every theorem about
  the loop holds for an arbitrary decoder unless stated otherwise.
  `String::from_utf8_lossy` (Rust std) is modelled by `utf8Lossy`, an
  incremental UTF-8 decoder with the standard maximal-subpart replacement
  policy, one `U+FFFD` per maximal subpart of an ill-formed sequence.

* `git.rs`: `validate_git_ref`, `validate_path_within_repo`,
  `get_repository_root`, `get_changed_files`, `filter_analyzable_files`.
  The external world (the git subprocess, the filesystem) is a `GitEnv` record
  of oracles; subprocess invocations are recorded in a returned trace (a list
  of argument vectors) so that claims about what is spawned can be stated.

* `ApiClient::new` (api_client.rs, lines 15-45): the URL scheme check.  The
  `url` crate parser is external, so the embedding takes the parse result
  (`Option ParsedUrl`, with `scheme` and `host_str`) as input.
-/

-- ===== small string helpers ==========================================

def strL (s : String) : List Char := s.toList

def asciiBytes (s : String) : List Nat := s.toList.map Char.toNat

-- ===== String::from_utf8_lossy (Rust std) =============================

def replacementChar : Char := Char.ofNat 0xFFFD

/-- UTF-8 decode state at a byte not starting a character: accumulated code
point bits, number of continuation bytes still needed, and the inclusive
bounds for the next byte (they encode the E0/ED/F0/F4 special ranges). -/
def Utf8State := Option (Nat × Nat × Nat × Nat)

-- Transition from the initial state on byte b: either emit an ASCII char,
-- enter a multi-byte state, or emit one replacement char for a stray byte.
def utf8Start (b : Nat) : List Char × Utf8State :=
  if b < 0x80 then ([Char.ofNat b], none)
  else if 0xC2 ≤ b ∧ b ≤ 0xDF then ([], some (b - 0xC0, 1, 0x80, 0xBF))
  else if b = 0xE0 then ([], some (0, 2, 0xA0, 0xBF))
  else if b = 0xED then ([], some (0xD, 2, 0x80, 0x9F))
  else if 0xE0 ≤ b ∧ b ≤ 0xEF then ([], some (b - 0xE0, 2, 0x80, 0xBF))
  else if b = 0xF0 then ([], some (0, 3, 0x90, 0xBF))
  else if b = 0xF4 then ([], some (4, 3, 0x80, 0x8F))
  else if 0xF0 ≤ b ∧ b ≤ 0xF4 then ([], some (b - 0xF0, 3, 0x80, 0xBF))
  else ([replacementChar], none)

-- One byte of the incremental decoder.  An out-of-range byte ends the current
-- maximal subpart (one replacement char) and is reprocessed from the start
-- state, exactly the substitution of maximal subparts of from_utf8_lossy.
def utf8Step (st : Utf8State) (b : Nat) : List Char × Utf8State :=
  match st with
  | none => utf8Start b
  | some (acc, need, lo, hi) =>
    if lo ≤ b ∧ b ≤ hi then
      if need = 1 then ([Char.ofNat (acc * 64 + (b - 0x80))], none)
      else ([], some (acc * 64 + (b - 0x80), need - 1, 0x80, 0xBF))
    else
      let s := utf8Start b
      (replacementChar :: s.1, s.2)

def utf8LossyGo (st : Utf8State) : List Nat → List Char
  | [] =>
    match st with
    | none => []
    | some _ => [replacementChar]
  | b :: rest =>
    let p := utf8Step st b
    p.1 ++ utf8LossyGo p.2 rest

/-- Model of `String::from_utf8_lossy(&chunk)`: decode one chunk of bytes,
substituting one replacement character per maximal subpart of an ill-formed
sequence (a truncated sequence at the end of the chunk also yields one). -/
def utf8Lossy (bytes : List Nat) : List Char := utf8LossyGo none bytes

-- ===== line extraction from the buffer ================================

-- splitCompleteAcc cur t = (the complete newline-terminated segments of
-- cur ++ t, the remainder after the last newline).  This is what the source
-- loop `while let Some(newline_pos) = buffer.find('\n')` extracts overall.
def splitCompleteAcc : List Char → List Char → List (List Char) × List Char
  | cur, [] => ([], cur)
  | cur, c :: cs =>
    if c = '\n' then
      let r := splitCompleteAcc [] cs
      (cur :: r.1, r.2)
    else
      splitCompleteAcc (cur ++ [c]) cs

def splitComplete (t : List Char) : List (List Char) × List Char :=
  splitCompleteAcc [] t

/-- Segments of `t` strictly before each newline, in order; text after the
last newline (or all of `t` if it has none) is not a complete line. -/
def completeLines (t : List Char) : List (List Char) := (splitComplete t).1

-- ===== the SSE data model (models.rs) =================================

/-- SecurityFinding (src/Cli/src/models.rs). -/
structure SecurityFinding where
  id : List Char
  title : List Char
  description : List Char
  severity_level : Nat
  file_path : List Char
  line_number : Option Int
  code_snippet : Option (List Char)
  remediation : List Char
deriving DecidableEq

/-- Terminal result of `analyze_stream`: `Ok(())`, the `anyhow::bail!` on an
`error` event, or the `anyhow!("Stream read error: ...")` on a chunk error. -/
inductive Outcome where
  | success
  | serverError (msg : List Char)
  | readError (msg : List Char)
deriving DecidableEq

def eventMark : List Char := ['e', 'v', 'e', 'n', 't', ':', ' ']

def dataMark : List Char := ['d', 'a', 't', 'a', ':', ' ']

def findingStr : List Char := ['f', 'i', 'n', 'd', 'i', 'n', 'g']

def errorStr : List Char := ['e', 'r', 'r', 'o', 'r']

def serverErrorMark : List Char :=
  ['S', 'e', 'r', 'v', 'e', 'r', ' ', 'e', 'r', 'r', 'o', 'r', ':', ' ']

def readErrorMark : List Char :=
  ['S', 't', 'r', 'e', 'a', 'm', ' ', 'r', 'e', 'a', 'd', ' ',
   'e', 'r', 'r', 'o', 'r', ':', ' ']

-- Rust char::is_whitespace: the Unicode White_Space code points.
def isRustWhitespace (c : Char) : Bool :=
  (c.toNat == 0x09) || (c.toNat == 0x0A) || (c.toNat == 0x0B) ||
  (c.toNat == 0x0C) || (c.toNat == 0x0D) || (c.toNat == 0x20) ||
  (c.toNat == 0x85) || (c.toNat == 0xA0) || (c.toNat == 0x1680) ||
  (0x2000 ≤ c.toNat && c.toNat ≤ 0x200A) ||
  (c.toNat == 0x2028) || (c.toNat == 0x2029) || (c.toNat == 0x202F) ||
  (c.toNat == 0x205F) || (c.toNat == 0x3000)

/-- Model of Rust `str::trim`. -/
def rustTrim (l : List Char) : List Char :=
  ((l.dropWhile isRustWhitespace).reverse.dropWhile isRustWhitespace).reverse

/-- Model of Rust `str::strip_prefix`: `some` of the remainder when the first
argument is an initial segment of the second. -/
def stripPref : List Char → List Char → Option (List Char)
  | [], l => some l
  | _ :: _, [] => none
  | a :: ps, b :: ls => if a = b then stripPref ps ls else none

/-- Effect of one SSE protocol line: continue with a new event-type slot and
zero or one delivered findings, or halt with the server-error message. -/
inductive LineOut where
  | go (et : Option (List Char)) (out : List SecurityFinding)
  | halt (msg : List Char)
deriving DecidableEq

/-- One iteration of the per-line dispatch of `analyze_stream` (api_client.rs
lines 138-163), for the current event-type slot `et`. -/
def processLine (dec : List Char → Option SecurityFinding)
    (et : Option (List Char)) (rawLine : List Char) : LineOut :=
  let line := rustTrim rawLine
  if line = [] then .go none []
  else
    match stripPref eventMark line with
    | some ev => .go (some ev) []
    | none =>
      match stripPref dataMark line with
      | some d =>
        match et with
        | some t =>
          if t = findingStr then
            match dec d with
            | some f => .go et [f]
            | none => .go et []
          else if t = errorStr then .halt (serverErrorMark ++ d)
          else .go et []
        | none => .go et []
      | none => .go et []

/-- Result of running the line dispatch over a list of lines. -/
inductive LinesOut where
  | go (et : Option (List Char)) (acc : List SecurityFinding)
  | halt (acc : List SecurityFinding) (msg : List Char)
deriving DecidableEq

/-- Run `processLine` over a list of lines; `acc` is the ordered list of
findings already delivered to the sink.  Stops at the first halting line with
the findings delivered strictly before it. -/
def runLines (dec : List Char → Option SecurityFinding) :
    List (List Char) → Option (List Char) → List SecurityFinding → LinesOut
  | [], et, acc => .go et acc
  | l :: ls, et, acc =>
    match processLine dec et l with
    | .go et2 out => runLines dec ls et2 (acc ++ out)
    | .halt msg => .halt acc msg

def outcomeOfLines : LinesOut → List SecurityFinding × Outcome
  | .go _ acc => (acc, .success)
  | .halt acc msg => (acc, .serverError msg)

/-- Result of draining the buffer inside one chunk iteration. -/
inductive RunOut where
  | go (buffer : List Char) (et : Option (List Char)) (acc : List SecurityFinding)
  | halt (acc : List SecurityFinding) (msg : List Char)
deriving DecidableEq

/-- The inner loop of `analyze_stream` (lines 134-164): repeatedly split the
buffer at the first newline and dispatch the extracted line, until no newline
remains or a line halts.  Expressed as: dispatch every complete line of the
buffer in order (stopping at a halt) and keep the text after the last newline;
`drainLoop_of_no_newline` and `drainLoop_cons_line` below prove that this
satisfies exactly the recursion of the source loop. -/
def drainLoop (dec : List Char → Option SecurityFinding)
    (buffer : List Char) (et : Option (List Char))
    (acc : List SecurityFinding) : RunOut :=
  match runLines dec (splitComplete buffer).1 et acc with
  | .go et2 acc2 => .go (splitComplete buffer).2 et2 acc2
  | .halt acc2 msg => .halt acc2 msg

/-- The chunk loop of `analyze_stream` (lines 128-165): a chunk read error
fails with "Stream read error: ...", otherwise the chunk is decoded with
`from_utf8_lossy`, appended to the buffer and the buffer is drained; end of
stream returns success. -/
def runChunks (dec : List Char → Option SecurityFinding) :
    List (Except (List Char) (List Nat)) → List Char →
    Option (List Char) → List SecurityFinding →
    List SecurityFinding × Outcome
  | [], _, _, acc => (acc, .success)
  | .error e :: _, _, _, acc => (acc, .readError (readErrorMark ++ e))
  | .ok bytes :: rest, buffer, et, acc =>
    match drainLoop dec (buffer ++ utf8Lossy bytes) et acc with
    | .go buf2 et2 acc2 => runChunks dec rest buf2 et2 acc2
    | .halt acc2 msg => (acc2, .serverError msg)

/-- `ApiClient::analyze_stream`, from the first chunk on (request construction
and the HTTP status check above line 124 are out of scope).  The observable
result is the ordered list of findings passed to the `on_finding` sink,
paired with the terminal outcome. -/
def analyze_stream (dec : List Char → Option SecurityFinding)
    (chunks : List (Except (List Char) (List Nat))) :
    List SecurityFinding × Outcome :=
  runChunks dec chunks [] none []

/-- Concatenation of the per-chunk lossy decodings: the exact character
sequence the loop appends to its buffer over the whole stream. -/
def textOf (parts : List (List Nat)) : List Char :=
  (parts.map utf8Lossy).flatten

/-- Number of well-formed `finding` events among a list of lines: data lines
dispatched while the event-type slot is `finding` whose payload decodes.
Stated as its own recursion over the SSE line grammar (not via `processLine`)
so that the count is independent of the delivery machinery. -/
def countFindings (dec : List Char → Option SecurityFinding) :
    List (List Char) → Option (List Char) → Nat
  | [], _ => 0
  | l :: ls, et =>
    let line := rustTrim l
    if line = [] then countFindings dec ls none
    else
      match stripPref eventMark line with
      | some ev => countFindings dec ls (some ev)
      | none =>
        match stripPref dataMark line with
        | some d =>
          (if et = some findingStr ∧ (dec d).isSome then 1 else 0) +
            countFindings dec ls et
        | none => countFindings dec ls et

-- ===== git.rs =========================================================

/-- DiffTarget (git.rs lines 6-13). -/
inductive DiffTarget where
  | WorkingTree
  | Staged
  | Commit (reference : List Char)

/-- GitDiffResult (git.rs lines 17-21). -/
structure GitDiffResult where
  changed_files : List (List Char)
  repository_root : List Char
  description : List Char
deriving DecidableEq

/-- One bail point of git.rs, by source location. -/
inductive GitError where
  | gitExecFailed
  | notARepository
  | invalidRefStart
  | invalidRefChars
  | diffExecFailed
  | diffFailed
deriving DecidableEq

deriving instance DecidableEq for Except

/-- Result of one subprocess invocation: `.output()` itself failed, or the
process exited with a success flag and captured stdout (stdout modelled as
text; the UTF-8 re-parse of stdout is not modelled). -/
inductive CmdResult where
  | execError
  | exited (success : Bool) (stdout : List Char)

/-- The external world of git.rs: the git subprocess and the filesystem.
`diff` maps a diff argument vector to the subprocess result; `canonicalize`
returns the canonical absolute path or `none` when canonicalization errors. -/
structure GitEnv where
  revParseToplevel : CmdResult
  diff : List (List Char) → CmdResult
  pathExists : List Char → Bool
  canonicalize : List Char → Option (List Char)

-- The character class of the regex ^[a-zA-Z0-9_./@^~-]+$ (git.rs line 60).
def allowedRefChar (c : Char) : Bool :=
  c.isAlphanum || c == '_' || c == '.' || c == '/' || c == '@' ||
  c == '^' || c == '~' || c == '-'

/-- `validate_git_ref` (git.rs lines 53-67): reject a leading '-', then
require a full match of `^[a-zA-Z0-9_./@^~-]+$` (so the empty string is also
rejected: `+` needs at least one character). -/
def validate_git_ref (reference : List Char) : Except GitError Unit :=
  if reference.head? = some '-' then .error .invalidRefStart
  else if !reference.isEmpty && reference.all allowedRefChar then .ok ()
  else .error .invalidRefChars

def splitOnCharAcc (sep : Char) : List Char → List Char → List (List Char)
  | cur, [] => [cur]
  | cur, c :: cs =>
    if c = sep then cur :: splitOnCharAcc sep [] cs
    else splitOnCharAcc sep (cur ++ [c]) cs

def splitOnChar (sep : Char) (l : List Char) : List (List Char) :=
  splitOnCharAcc sep [] l

-- Path components ignoring empty segments; adequate for the canonical
-- absolute paths compared below.
def pathComponents (p : List Char) : List (List Char) :=
  (splitOnChar '/' p).filter fun s => !s.isEmpty

/-- Model of `Path::starts_with` for canonical absolute paths: component-wise
prefix (so "/roota" does not start with "/root"). -/
def pathStartsWith (p root : List Char) : Bool :=
  (pathComponents root).isPrefixOf (pathComponents p)

/-- `validate_path_within_repo` (git.rs lines 70-80): a path that does not
exist passes (filtered later); otherwise both the path and the repository
root must canonicalize and the canonical path must start with the canonical
root, else the path is rejected. -/
def validate_path_within_repo (env : GitEnv) (path repo_root : List Char) : Bool :=
  if env.pathExists path = false then true
  else
    match env.canonicalize path, env.canonicalize repo_root with
    | some cp, some cr => pathStartsWith cp cr
    | _, _ => false

def stripTrailingCR (l : List Char) : List Char :=
  if l.getLast? = some '\r' then l.dropLast else l

def linesOfAcc : List Char → List Char → List (List Char)
  | cur, [] => if cur.isEmpty then [] else [stripTrailingCR cur]
  | cur, c :: cs =>
    if c = '\n' then stripTrailingCR cur :: linesOfAcc [] cs
    else linesOfAcc (cur ++ [c]) cs

/-- Model of Rust `str::lines`. -/
def linesOf (s : List Char) : List (List Char) := linesOfAcc [] s

/-- Model of `PathBuf::join` for string paths: an absolute right operand
replaces the left one. -/
def pathJoin (root line : List Char) : List Char :=
  if line.head? = some '/' then line else root ++ '/' :: line

def revParseArgs : List (List Char) :=
  [strL "rev-parse", strL "--show-toplevel"]

/-- `get_repository_root` (git.rs lines 34-50).  The second component is the
trace of subprocess argument vectors spawned, in order. -/
def get_repository_root (env : GitEnv) :
    Except GitError (List Char) × List (List (List Char)) :=
  match env.revParseToplevel with
  | .execError => (.error .gitExecFailed, [revParseArgs])
  | .exited false _ => (.error .notARepository, [revParseArgs])
  | .exited true out => (.ok (rustTrim out), [revParseArgs])

/-- The `(args, description)` selection of `get_changed_files` (git.rs lines
87-101); for `Commit` the reference is validated before any diff arguments
are formed. -/
def diffInvocation : DiffTarget → Except GitError (List (List Char) × List Char)
  | .WorkingTree => .ok ([strL "diff", strL "--name-only"], strL "unstaged changes")
  | .Staged =>
    .ok ([strL "diff", strL "--staged", strL "--name-only"], strL "staged changes")
  | .Commit c =>
    match validate_git_ref c with
    | .error e => .error e
    | .ok _ =>
      .ok ([strL "diff", strL "--name-only", c, strL "HEAD"],
           strL "changes since " ++ c)

/-- `get_changed_files` (git.rs lines 83-129), with the trace of spawned
subprocess argument vectors as second component.  Note the source resolves
the repository root (spawning `git rev-parse --show-toplevel`) before the
reference validation inside the `Commit` arm. -/
def get_changed_files (env : GitEnv) (target : DiffTarget) :
    Except GitError GitDiffResult × List (List (List Char)) :=
  match get_repository_root env with
  | (.error e, tr) => (.error e, tr)
  | (.ok repoRoot, tr) =>
    match diffInvocation target with
    | .error e => (.error e, tr)
    | .ok (args, description) =>
      match env.diff args with
      | .execError => (.error .diffExecFailed, tr ++ [args])
      | .exited false _ => (.error .diffFailed, tr ++ [args])
      | .exited true out =>
        let files :=
          ((((linesOf out).filter fun l => !(rustTrim l).isEmpty).map
            fun l => pathJoin repoRoot l).filter
            fun p => validate_path_within_repo env p repoRoot)
        (.ok ⟨files, repoRoot, description⟩, tr ++ [args])

def asciiLower (c : Char) : Char :=
  if 'A' ≤ c ∧ c ≤ 'Z' then Char.ofNat (c.toNat + 32) else c

/-- Model of Rust `str::eq_ignore_ascii_case`. -/
def eqIgnoreAsciiCase (a b : List Char) : Bool :=
  a.map asciiLower == b.map asciiLower

def default_extensions : List (List Char) :=
  ["cs", "rs", "py", "js", "ts", "jsx", "tsx", "java", "go", "rb", "php",
   "c", "cpp", "h", "hpp"].map String.toList

/-- Model of `Path::extension`: the part of the file name after its last dot,
where a dot at the very start of the file name does not count; `none` when
there is no such dot. -/
def extension (p : List Char) : Option (List Char) :=
  match (splitOnChar '/' p).getLastD [] with
  | [] => none
  | _ :: rest =>
    if rest.contains '.' then some ((splitOnChar '.' rest).getLastD [])
    else none

/-- `filter_analyzable_files` (git.rs lines 133-151): keep paths whose
extension matches the allow-list case-insensitively (the default set when
`none` is supplied), then keep only paths that exist on disk. -/
def filter_analyzable_files (env : GitEnv) (files : List (List Char))
    (extensions : Option (List (List Char))) : List (List Char) :=
  let exts := extensions.getD default_extensions
  ((files.filter fun p =>
      match extension p with
      | some e => exts.any fun x => eqIgnoreAsciiCase x e
      | none => false).filter
    fun p => env.pathExists p)

-- ===== ApiClient::new (api_client.rs lines 15-45) =====================

/-- The part of a parsed `url::Url` the constructor inspects: `scheme()` and
`host_str()` (`none` when the URL has no host). -/
structure ParsedUrl where
  scheme : List Char
  host : Option (List Char)
deriving DecidableEq

inductive ApiError where
  | invalidUrl
  | insecureEndpoint
deriving DecidableEq

/-- `ApiClient::new`, taking the result of `url::Url::parse` as input
(`none` = parse error).  The source rejects exactly scheme "http" on a host
string other than "localhost", "127.0.0.1", "::1"; every other scheme passes
(the client build below it is infallible in this model). -/
def apiClient_new (parsed : Option ParsedUrl) : Except ApiError Unit :=
  match parsed with
  | none => .error .invalidUrl
  | some u =>
    let host := u.host.getD []
    let is_localhost :=
      host == strL "localhost" || host == strL "127.0.0.1" || host == strL "::1"
    if u.scheme == strL "http" && !is_localhost then .error .insecureEndpoint
    else .ok ()

-- ===== concrete decoders, findings and environments for witnesses =====

/-- Decoder refusing every payload (used where the stream under study carries
no `finding` payload, so the decoder is irrelevant). -/
def decNone : List Char → Option SecurityFinding := fun _ => none

def exampleFinding : SecurityFinding :=
  { id := strL "F1", title := strL "t", description := strL "d",
    severity_level := 0, file_path := strL "f", line_number := none,
    code_snippet := none, remediation := strL "r" }

/-- Decoder accepting exactly the payload "x" (stands in for serde_json on
streams whose only well-formed payload is "x"). -/
def decX : List Char → Option SecurityFinding :=
  fun d => if d = strL "x" then some exampleFinding else none

def exampleGitEnv : GitEnv :=
  { revParseToplevel := .exited true (strL "/repo\n")
  , diff := fun _ => .exited true (strL "a.rs\nevil\n")
  , pathExists := fun p => p == strL "/repo/a.rs" || p == strL "/repo/evil"
  , canonicalize := fun p =>
      if p == strL "/repo/a.rs" then some (strL "/repo/a.rs")
      else if p == strL "/repo" then some (strL "/repo")
      else if p == strL "/repo/evil" then some (strL "/outside/evil")
      else none }

def exampleFsEnv : GitEnv :=
  { revParseToplevel := .execError
  , diff := fun _ => .execError
  , pathExists := fun _ => true
  , canonicalize := fun _ => none }

-- A well-formed SSE byte stream whose error payload contains the two-byte
-- UTF-8 character 0xC3 0xA9, split between the two bytes.
def c1FirstChunk : List Nat := asciiBytes "event: error\ndata: a" ++ [0xC3]

def c1SecondChunk : List Nat := [0xA9] ++ asciiBytes "\n\n"

-- ===== lemmas: utf8Lossy on ASCII input ===============================

theorem utf8Step_none_ascii (b : Nat) (h : b < 128) :
    utf8Step none b = ([Char.ofNat b], none) := by
  simp [utf8Step, utf8Start, h]

theorem utf8LossyGo_none_ascii_append (a : List Nat) :
    ∀ y : List Nat, (∀ b ∈ a, b < 128) →
      utf8LossyGo none (a ++ y) = a.map Char.ofNat ++ utf8LossyGo none y := by
  induction a with
  | nil => intro y _; simp
  | cons b rest ih =>
    intro y h
    have hb : b < 128 := h b (by simp)
    simp only [List.cons_append, utf8LossyGo, utf8Step_none_ascii b hb]
    simp [ih y (fun x hx => h x (by simp [hx]))]

theorem utf8Lossy_ascii_append (a y : List Nat) (h : ∀ b ∈ a, b < 128) :
    utf8Lossy (a ++ y) = utf8Lossy a ++ utf8Lossy y := by
  have h2 := utf8LossyGo_none_ascii_append a y h
  have h3 := utf8LossyGo_none_ascii_append a [] h
  simp only [List.append_nil] at h3
  simp only [utf8Lossy, h2, h3]
  simp [utf8LossyGo]

theorem textOf_ascii (parts : List (List Nat))
    (h : ∀ p ∈ parts, ∀ b ∈ p, b < 128) :
    textOf parts = utf8Lossy parts.flatten := by
  induction parts with
  | nil => simp [textOf, utf8Lossy, utf8LossyGo]
  | cons p ps ih =>
    have hp : ∀ b ∈ p, b < 128 := h p (by simp)
    have hps : ∀ q ∈ ps, ∀ b ∈ q, b < 128 := fun q hq => h q (by simp [hq])
    have : textOf (p :: ps) = utf8Lossy p ++ textOf ps := by simp [textOf]
    rw [this, ih hps, List.flatten_cons, utf8Lossy_ascii_append p ps.flatten hp]

-- ===== lemmas: buffer line splitting ==================================

theorem splitCompleteAcc_step (p : List Char) :
    ∀ (cur rest : List Char), '\n' ∉ p →
      splitCompleteAcc cur (p ++ rest) = splitCompleteAcc (cur ++ p) rest := by
  induction p with
  | nil => intro cur rest _; simp
  | cons c cs ih =>
    intro cur rest h
    have hc : ¬ c = '\n' := fun e => h (by simp [e])
    simp only [List.cons_append, splitCompleteAcc, if_neg hc, List.append_eq]
    rw [ih (cur ++ [c]) rest (fun hm => h (by simp [hm]))]
    simp

theorem splitCompleteAcc_no_newline (cur p : List Char) (h : '\n' ∉ p) :
    splitCompleteAcc cur p = ([], cur ++ p) := by
  have := splitCompleteAcc_step p cur [] h
  simpa [splitCompleteAcc] using this

theorem splitCompleteAcc_append (t1 : List Char) :
    ∀ (cur t2 : List Char),
      splitCompleteAcc cur (t1 ++ t2)
        = ((splitCompleteAcc cur t1).1
             ++ (splitCompleteAcc (splitCompleteAcc cur t1).2 t2).1,
           (splitCompleteAcc (splitCompleteAcc cur t1).2 t2).2) := by
  induction t1 with
  | nil => intro cur t2; simp [splitCompleteAcc]
  | cons c cs ih =>
    intro cur t2
    by_cases hc : c = '\n'
    · subst hc
      simp only [List.cons_append, splitCompleteAcc, if_pos rfl, List.append_eq]
      rw [ih []]
      simp
    · simp only [List.cons_append, splitCompleteAcc, if_neg hc, List.append_eq]
      exact ih (cur ++ [c]) t2

theorem splitCompleteAcc_snd_no_newline (t : List Char) :
    ∀ cur, '\n' ∉ cur → '\n' ∉ (splitCompleteAcc cur t).2 := by
  induction t with
  | nil => intro cur h; simpa [splitCompleteAcc] using h
  | cons c cs ih =>
    intro cur h
    by_cases hc : c = '\n'
    · subst hc
      simp only [splitCompleteAcc, if_pos rfl]
      exact ih [] (by simp)
    · simp only [splitCompleteAcc, if_neg hc]
      refine ih (cur ++ [c]) ?_
      intro hm
      rcases List.mem_append.mp hm with h1 | h1
      · exact h h1
      · simp at h1; exact hc h1.symm

theorem splitComplete_snd_no_newline (t : List Char) :
    '\n' ∉ (splitComplete t).2 :=
  splitCompleteAcc_snd_no_newline t [] (by simp)

theorem completeLines_no_newline {t : List Char} (h : '\n' ∉ t) :
    completeLines t = [] := by
  simp [completeLines, splitComplete, splitCompleteAcc_no_newline [] t h]

theorem completeLines_chunk (x y : List Char) :
    completeLines (x ++ y)
      = (splitComplete x).1 ++ completeLines ((splitComplete x).2 ++ y) := by
  have h1 := splitCompleteAcc_append x [] y
  have h2 := splitCompleteAcc_step (splitComplete x).2 [] y
    (splitComplete_snd_no_newline x)
  simp only [List.nil_append] at h2
  simp only [completeLines, splitComplete] at *
  rw [h1, h2]

theorem completeLines_append_no_newline (t s : List Char) (h : '\n' ∉ s) :
    completeLines (t ++ s) = completeLines t := by
  rw [completeLines_chunk]
  have h2 : '\n' ∉ (splitComplete t).2 ++ s := by
    intro hm
    rcases List.mem_append.mp hm with h1 | h1
    · exact splitComplete_snd_no_newline t h1
    · exact h h1
  rw [completeLines_no_newline h2]
  simp [completeLines]

-- ===== lemmas: the line machine and the chunk loop ====================

theorem runLines_append (dec : List Char → Option SecurityFinding)
    (A : List (List Char)) :
    ∀ (B : List (List Char)) (et : Option (List Char))
      (acc : List SecurityFinding),
      runLines dec (A ++ B) et acc
        = match runLines dec A et acc with
          | .go et2 acc2 => runLines dec B et2 acc2
          | .halt acc2 msg => .halt acc2 msg := by
  induction A with
  | nil => intro B et acc; simp [runLines]
  | cons l ls ih =>
    intro B et acc
    simp only [List.cons_append, runLines]
    cases processLine dec et l with
    | go et2 out => simp only []; exact ih B et2 (acc ++ out)
    | halt msg => simp

theorem drainLoop_of_no_newline (dec : List Char → Option SecurityFinding)
    (buffer : List Char) (et : Option (List Char))
    (acc : List SecurityFinding) (h : '\n' ∉ buffer) :
    drainLoop dec buffer et acc = .go buffer et acc := by
  simp [drainLoop, splitComplete, splitCompleteAcc_no_newline [] buffer h,
    runLines]

theorem drainLoop_cons_line (dec : List Char → Option SecurityFinding)
    (p q : List Char) (et : Option (List Char)) (acc : List SecurityFinding)
    (h : '\n' ∉ p) :
    drainLoop dec (p ++ '\n' :: q) et acc
      = match processLine dec et p with
        | .go et2 out => drainLoop dec q et2 (acc ++ out)
        | .halt msg => .halt acc msg := by
  have hs : splitCompleteAcc [] (p ++ '\n' :: q) = splitCompleteAcc p ('\n' :: q) := by
    simpa using splitCompleteAcc_step p [] ('\n' :: q) h
  simp only [drainLoop, splitComplete, hs, splitCompleteAcc, if_pos rfl,
    runLines]
  cases processLine dec et p <;> simp

theorem runChunks_ok_bridge (dec : List Char → Option SecurityFinding)
    (parts : List (List Nat)) :
    ∀ (buffer : List Char) (et : Option (List Char))
      (acc : List SecurityFinding), '\n' ∉ buffer →
      runChunks dec (parts.map .ok) buffer et acc
        = outcomeOfLines
            (runLines dec (completeLines (buffer ++ textOf parts)) et acc) := by
  induction parts with
  | nil =>
    intro buffer et acc hb
    simp [textOf, runChunks, completeLines_no_newline hb, runLines,
      outcomeOfLines]
  | cons p ps ih =>
    intro buffer et acc hb
    have htext : buffer ++ textOf (p :: ps)
        = (buffer ++ utf8Lossy p) ++ textOf ps := by
      simp [textOf, List.append_assoc]
    rw [htext, completeLines_chunk, runLines_append]
    simp only [List.map_cons, runChunks, drainLoop]
    cases hR : runLines dec (splitComplete (buffer ++ utf8Lossy p)).1 et acc with
    | go et2 acc2 =>
      simp only []
      exact ih (splitComplete (buffer ++ utf8Lossy p)).2 et2 acc2
        (splitComplete_snd_no_newline _)
    | halt acc2 msg => simp [outcomeOfLines]

theorem runChunks_halt_bridge (dec : List Char → Option SecurityFinding)
    (parts : List (List Nat)) :
    ∀ (rest : List (Except (List Char) (List Nat))) (buffer : List Char)
      (et : Option (List Char)) (acc acc2 : List SecurityFinding)
      (msg : List Char), '\n' ∉ buffer →
      runLines dec (completeLines (buffer ++ textOf parts)) et acc
        = .halt acc2 msg →
      runChunks dec (parts.map .ok ++ rest) buffer et acc
        = (acc2, .serverError msg) := by
  induction parts with
  | nil =>
    intro rest buffer et acc acc2 msg hb hrun
    rw [show buffer ++ textOf [] = buffer by simp [textOf],
      completeLines_no_newline hb] at hrun
    simp [runLines] at hrun
  | cons p ps ih =>
    intro rest buffer et acc acc2 msg hb hrun
    rw [show buffer ++ textOf (p :: ps) = (buffer ++ utf8Lossy p) ++ textOf ps
        by simp [textOf, List.append_assoc],
      completeLines_chunk, runLines_append] at hrun
    simp only [List.map_cons, List.cons_append, runChunks, drainLoop]
    cases hR : runLines dec (splitComplete (buffer ++ utf8Lossy p)).1 et acc with
    | go et2 acc3 =>
      rw [hR] at hrun
      simp only [] at hrun
      exact ih rest _ et2 acc3 acc2 msg (splitComplete_snd_no_newline _) hrun
    | halt acc3 m =>
      rw [hR] at hrun
      simp only [LinesOut.halt.injEq] at hrun
      simp [hrun.1, hrun.2]

theorem analyze_stream_bridge (dec : List Char → Option SecurityFinding)
    (parts : List (List Nat)) :
    analyze_stream dec (parts.map .ok)
      = outcomeOfLines (runLines dec (completeLines (textOf parts)) none []) := by
  have h := runChunks_ok_bridge dec parts [] none [] (by simp)
  simpa [analyze_stream] using h

theorem analyze_stream_halt_bridge (dec : List Char → Option SecurityFinding)
    (parts : List (List Nat)) (rest : List (Except (List Char) (List Nat)))
    (acc2 : List SecurityFinding) (msg : List Char)
    (h : runLines dec (completeLines (textOf parts)) none [] = .halt acc2 msg) :
    analyze_stream dec (parts.map .ok ++ rest) = (acc2, .serverError msg) := by
  exact runChunks_halt_bridge dec parts rest [] none [] acc2 msg (by simp)
    (by simpa using h)

-- ===== lemmas: processLine and the finding count ======================

theorem stripPref_self_append (p r : List Char) :
    stripPref p (p ++ r) = some r := by
  induction p with
  | nil => simp [stripPref]
  | cons a ps ih => simp [stripPref, ih]

theorem stripPref_event_of_data (d : List Char) :
    stripPref eventMark (dataMark ++ d) = none := by
  simp [eventMark, dataMark, stripPref]

theorem processLine_error_data (dec : List Char → Option SecurityFinding)
    (l d : List Char) (hline : rustTrim l = dataMark ++ d) :
    processLine dec (some errorStr) l = .halt (serverErrorMark ++ d) := by
  simp only [processLine, hline]
  rw [if_neg (by simp [dataMark]), stripPref_event_of_data,
    stripPref_self_append]
  simp [errorStr, findingStr]

theorem processLine_finding_data_bad (dec : List Char → Option SecurityFinding)
    (l d : List Char) (hline : rustTrim l = dataMark ++ d)
    (hdec : dec d = none) :
    processLine dec (some findingStr) l = .go (some findingStr) [] := by
  simp only [processLine, hline]
  rw [if_neg (by simp [dataMark]), stripPref_event_of_data,
    stripPref_self_append]
  simp [hdec]

theorem countFindings_cons (dec : List Char → Option SecurityFinding)
    (et : Option (List Char)) (l : List Char) (ls : List (List Char))
    (et2 : Option (List Char)) (out : List SecurityFinding)
    (h : processLine dec et l = .go et2 out) :
    countFindings dec (l :: ls) et = out.length + countFindings dec ls et2 := by
  simp only [processLine] at h
  simp only [countFindings]
  by_cases h0 : rustTrim l = []
  · simp only [h0, if_true, LineOut.go.injEq] at h
    obtain ⟨h1, h2⟩ := h
    subst h1; subst h2
    simp [h0]
  · cases hev : stripPref eventMark (rustTrim l) with
    | some ev =>
      simp only [h0, hev, if_false, LineOut.go.injEq] at h
      obtain ⟨h1, h2⟩ := h
      subst h1; subst h2
      simp [h0, hev]
    | none =>
      cases hd : stripPref dataMark (rustTrim l) with
      | none =>
        simp only [h0, hev, hd, if_false, LineOut.go.injEq] at h
        obtain ⟨h1, h2⟩ := h
        subst h1; subst h2
        simp [h0, hev, hd]
      | some d =>
        cases et with
        | none =>
          simp only [h0, hev, hd, if_false, LineOut.go.injEq] at h
          obtain ⟨h1, h2⟩ := h
          subst h1; subst h2
          simp [h0, hev, hd]
        | some t =>
          by_cases hf : t = findingStr
          · subst hf
            cases hdec : dec d with
            | some f =>
              simp only [h0, hev, hd, hdec, if_false, if_true, if_pos rfl,
                LineOut.go.injEq] at h
              obtain ⟨h1, h2⟩ := h
              subst h1; subst h2
              simp [h0, hev, hd, hdec]
            | none =>
              simp only [h0, hev, hd, hdec, if_false, if_true, if_pos rfl,
                LineOut.go.injEq] at h
              obtain ⟨h1, h2⟩ := h
              subst h1; subst h2
              simp [h0, hev, hd, hdec]
          · by_cases he : t = errorStr
            · simp only [h0, hev, hd, if_false, if_neg hf, if_pos he] at h
              exact absurd h (by simp)
            · simp only [h0, hev, hd, if_false, if_neg hf, if_neg he,
                LineOut.go.injEq] at h
              obtain ⟨h1, h2⟩ := h
              subst h1; subst h2
              simp [h0, hev, hd, hf]

theorem runLines_go_length (dec : List Char → Option SecurityFinding)
    (ls : List (List Char)) :
    ∀ (et : Option (List Char)) (acc : List SecurityFinding)
      (et2 : Option (List Char)) (acc2 : List SecurityFinding),
      runLines dec ls et acc = .go et2 acc2 →
      acc2.length = acc.length + countFindings dec ls et := by
  induction ls with
  | nil =>
    intro et acc et2 acc2 h
    simp only [runLines, LinesOut.go.injEq] at h
    simp [countFindings, ← h.2]
  | cons l ls ih =>
    intro et acc et2 acc2 h
    simp only [runLines] at h
    cases hp : processLine dec et l with
    | go et3 out =>
      rw [hp] at h
      simp only [] at h
      have hlen := ih et3 (acc ++ out) et2 acc2 h
      rw [countFindings_cons dec et l ls et3 out hp]
      simp at hlen
      omega
    | halt msg =>
      rw [hp] at h
      exact absurd h (by simp)

-- ===== claim theorems: the stream ingestor ============================

/-- C1, counterexample to the claim as stated.  A well-formed SSE byte
sequence whose error payload contains the two-byte UTF-8 character C3 A9,
split at the byte boundary between C3 and A9, produces a different observable
result than the unsplit sequence: per-chunk lossy decoding turns the split
character into two replacement characters, so the failure outcome carries a
different message ("Server error: a(2x U+FFFD)" against "Server error: aé").
The stream carries no finding payload, so the JSON decoder is irrelevant
(`decNone` is used).  Hence the observable result is not a function of the
concatenated bytes alone. -/
theorem analyze_stream_chunking_counterexample :
    [c1FirstChunk, c1SecondChunk].flatten = c1FirstChunk ++ c1SecondChunk ∧
    analyze_stream decNone ([c1FirstChunk, c1SecondChunk].map .ok)
      ≠ analyze_stream decNone [.ok (c1FirstChunk ++ c1SecondChunk)] := by
  exact ⟨by simp, by decide⟩

/-- C1, amended: for every byte sequence consisting of ASCII bytes only
(every byte below 128) and every way of splitting it into chunks, the
ingestion loop of `analyze_stream` produces the identical ordered sequence of
delivered findings and the identical terminal outcome — chunk boundaries are
unobservable.  (The amendment restricts the claim to streams where per-chunk
lossy decoding cannot substitute replacement characters; the counterexample
shows the unrestricted claim fails.) -/
theorem analyze_stream_chunking_ascii_invariant
    (dec : List Char → Option SecurityFinding) (parts : List (List Nat))
    (bs : List Nat) (hascii : ∀ b ∈ bs, b < 128) (hflat : parts.flatten = bs) :
    analyze_stream dec (parts.map .ok) = analyze_stream dec [.ok bs] := by
  subst hflat
  have h2 : textOf parts = utf8Lossy parts.flatten :=
    textOf_ascii parts (fun p hp b hb => hascii b (List.mem_flatten.mpr ⟨p, hp, hb⟩))
  have hone := analyze_stream_bridge dec [parts.flatten]
  have h1 : textOf [parts.flatten] = utf8Lossy parts.flatten := by
    simp [textOf]
  rw [analyze_stream_bridge dec parts, h2]
  rw [show ([.ok parts.flatten] : List (Except (List Char) (List Nat)))
      = [parts.flatten].map .ok from rfl, hone, h1]

/-- C1 amended, witness: the ASCII stream "event: finding(CR)data: x(CR)"
split in the middle of its first line is observably identical to the unsplit
stream. -/
theorem analyze_stream_chunking_ascii_invariant_witness :
    (∀ b ∈ asciiBytes "event: f" ++ asciiBytes "inding\ndata: x\n", b < 128) ∧
    analyze_stream decX
        ([asciiBytes "event: f", asciiBytes "inding\ndata: x\n"].map .ok)
      = analyze_stream decX
          [.ok (asciiBytes "event: f" ++ asciiBytes "inding\ndata: x\n")] :=
  ⟨by decide,
   analyze_stream_chunking_ascii_invariant decX
     [asciiBytes "event: f", asciiBytes "inding\ndata: x\n"]
     (asciiBytes "event: f" ++ asciiBytes "inding\ndata: x\n")
     (by decide) (by simp)⟩

/-- C2: when a data line is dispatched while the event-type slot holds
"error", `analyze_stream` terminates at once with the failure outcome whose
message carries that line's payload (the source formats it as
"Server error: {payload}"), and the findings delivered are exactly those of
the lines strictly before it — no finding whose bytes appear after the error
event is ever delivered, whatever chunks (`rest`, including further data or
transport errors) follow. -/
theorem analyze_stream_error_event_halts
    (dec : List Char → Option SecurityFinding) (parts : List (List Nat))
    (rest : List (Except (List Char) (List Nat))) (L1 L2 : List (List Char))
    (l d : List Char) (acc : List SecurityFinding)
    (hsplit : completeLines (textOf parts) = L1 ++ l :: L2)
    (hstate : runLines dec L1 none [] = .go (some errorStr) acc)
    (hline : rustTrim l = dataMark ++ d) :
    analyze_stream dec (parts.map .ok ++ rest)
      = (acc, .serverError (serverErrorMark ++ d)) := by
  apply analyze_stream_halt_bridge
  rw [hsplit, runLines_append, hstate]
  simp [runLines, processLine_error_data dec l d hline]

/-- C2, witness: in the stream
"event: finding / data: x / event: error / data: boom", the finding before
the error event is delivered, ingestion fails with "Server error: boom", and
nothing after is processed. -/
theorem analyze_stream_error_event_halts_witness :
    runLines decX [strL "event: finding", strL "data: x", strL "event: error"]
        none [] = .go (some errorStr) [exampleFinding] ∧
    analyze_stream decX
        [.ok (asciiBytes "event: finding\ndata: x\nevent: error\ndata: boom\n")]
      = ([exampleFinding], .serverError (serverErrorMark ++ strL "boom")) :=
  ⟨by decide,
   analyze_stream_error_event_halts decX
     [asciiBytes "event: finding\ndata: x\nevent: error\ndata: boom\n"] []
     [strL "event: finding", strL "data: x", strL "event: error"] []
     (strL "data: boom") (strL "boom") [exampleFinding]
     (by decide) (by decide) (by decide)⟩

/-- C3: a stream of chunks that all arrive (no transport read error) and
whose lines never halt (no error event) ends in the success outcome, and the
number of findings delivered equals the number of well-formed finding events
among its complete lines — whether or not a complete event arrived.  With
`parts = []` (zero events, clean close) the hypothesis holds with `acc2 = []`,
giving success and zero findings. -/
theorem analyze_stream_clean_close_success
    (dec : List Char → Option SecurityFinding) (parts : List (List Nat))
    (et2 : Option (List Char)) (acc2 : List SecurityFinding)
    (h : runLines dec (completeLines (textOf parts)) none [] = .go et2 acc2) :
    analyze_stream dec (parts.map .ok) = (acc2, .success) ∧
    acc2.length = countFindings dec (completeLines (textOf parts)) none := by
  constructor
  · rw [analyze_stream_bridge, h]; rfl
  · simpa using runLines_go_length dec _ none [] et2 acc2 h

/-- C3, witness: the stream "event: finding / data: x / event: finding /
data: bad" closes cleanly without a complete event; it succeeds with exactly
one delivered finding, matching the count of its well-formed finding events
(the payload "bad" does not decode). -/
theorem analyze_stream_clean_close_success_witness :
    runLines decX
        (completeLines (textOf
          [asciiBytes "event: finding\ndata: x\nevent: finding\ndata: bad\n"]))
        none [] = .go (some findingStr) [exampleFinding] ∧
    analyze_stream decX
        [.ok (asciiBytes "event: finding\ndata: x\nevent: finding\ndata: bad\n")]
      = ([exampleFinding], .success) ∧
    ([exampleFinding] : List SecurityFinding).length
      = countFindings decX
          (completeLines (textOf
            [asciiBytes "event: finding\ndata: x\nevent: finding\ndata: bad\n"]))
          none :=
  ⟨by decide,
   analyze_stream_clean_close_success decX
     [asciiBytes "event: finding\ndata: x\nevent: finding\ndata: bad\n"]
     (some findingStr) [exampleFinding] (by decide)⟩

/-- C4: a data line dispatched under event type "finding" whose payload fails
to decode is skipped without terminating ingestion: the observable result of
the stream equals the line-level result of the same line sequence with the
malformed line removed, so every subsequent well-formed finding is still
delivered in arrival order. -/
theorem analyze_stream_malformed_finding_skipped
    (dec : List Char → Option SecurityFinding) (parts : List (List Nat))
    (L1 L2 : List (List Char)) (bad d : List Char)
    (acc : List SecurityFinding)
    (hsplit : completeLines (textOf parts) = L1 ++ bad :: L2)
    (hstate : runLines dec L1 none [] = .go (some findingStr) acc)
    (hline : rustTrim bad = dataMark ++ d)
    (hdec : dec d = none) :
    analyze_stream dec (parts.map .ok)
      = outcomeOfLines (runLines dec (L1 ++ L2) none []) := by
  rw [analyze_stream_bridge, hsplit, runLines_append, hstate,
    runLines_append, hstate]
  simp [runLines, processLine_finding_data_bad dec bad d hline hdec]

/-- C4, witness: in "event: finding / data: bad / data: x" the malformed
payload "bad" is skipped and the later well-formed finding "x" is still
delivered; the stream behaves exactly as if the bad line were absent. -/
theorem analyze_stream_malformed_finding_skipped_witness :
    decX (strL "bad") = none ∧
    analyze_stream decX [.ok (asciiBytes "event: finding\ndata: bad\ndata: x\n")]
      = outcomeOfLines
          (runLines decX ([strL "event: finding"] ++ [strL "data: x"]) none []) ∧
    analyze_stream decX [.ok (asciiBytes "event: finding\ndata: bad\ndata: x\n")]
      = ([exampleFinding], .success) :=
  ⟨by decide,
   analyze_stream_malformed_finding_skipped decX
     [asciiBytes "event: finding\ndata: bad\ndata: x\n"]
     [strL "event: finding"] [strL "data: x"]
     (strL "data: bad") (strL "bad") []
     (by decide) (by decide) (by decide) (by decide),
   by decide⟩

/-- C10: text left in the line buffer when the byte stream ends, not
terminated by a newline, is discarded without ever being dispatched: a final
chunk whose decoded text contains no newline leaves the observable result of
`analyze_stream` unchanged.  In particular a trailing "data: ..." line
without a newline is never processed, so the finding or error it carries is
silently lost. -/
theorem analyze_stream_trailing_discarded
    (dec : List Char → Option SecurityFinding) (parts : List (List Nat))
    (tail : List Nat) (h : '\n' ∉ utf8Lossy tail) :
    analyze_stream dec (parts.map .ok ++ [.ok tail])
      = analyze_stream dec (parts.map .ok) := by
  have hmap : parts.map .ok ++ [.ok tail]
      = (parts ++ [tail]).map (Except.ok (ε := List Char)) := by simp
  rw [hmap, analyze_stream_bridge, analyze_stream_bridge]
  have htext : textOf (parts ++ [tail]) = textOf parts ++ utf8Lossy tail := by
    simp [textOf]
  rw [htext, completeLines_append_no_newline _ _ h]

/-- C10, witness: the stream whose text is "event: error(CR)data: boom"
(no final newline) behaves exactly like "event: error(CR)" alone: the
trailing error event is lost and the stream even ends in success. -/
theorem analyze_stream_trailing_discarded_witness :
    ('\n' ∉ utf8Lossy (asciiBytes "data: boom")) ∧
    analyze_stream decNone
        [.ok (asciiBytes "event: error\n"), .ok (asciiBytes "data: boom")]
      = analyze_stream decNone [.ok (asciiBytes "event: error\n")] ∧
    analyze_stream decNone [.ok (asciiBytes "event: error\n")] = ([], .success) :=
  ⟨by decide,
   analyze_stream_trailing_discarded decNone [asciiBytes "event: error\n"]
     (asciiBytes "data: boom") (by decide),
   by decide⟩

-- ===== lemmas and claim theorems: git.rs ==============================

theorem get_changed_files_ok_filter (env : GitEnv) (target : DiffTarget)
    (res : GitDiffResult) (tr : List (List (List Char)))
    (h : get_changed_files env target = (.ok res, tr)) :
    ∀ p ∈ res.changed_files,
      validate_path_within_repo env p res.repository_root = true := by
  intro p hp
  unfold get_changed_files at h
  cases henv : env.revParseToplevel with
  | execError => simp [get_repository_root, henv] at h
  | exited s out =>
    cases s with
    | false => simp [get_repository_root, henv] at h
    | true =>
      simp only [get_repository_root, henv] at h
      cases hdi : diffInvocation target with
      | error e => simp [hdi] at h
      | ok v =>
        obtain ⟨args, description⟩ := v
        simp only [hdi] at h
        cases hdiff : env.diff args with
        | execError => simp [hdiff] at h
        | exited s2 out2 =>
          cases s2 with
          | false => simp [hdiff] at h
          | true =>
            simp only [hdiff, Prod.mk.injEq, Except.ok.injEq] at h
            rw [← h.1] at hp ⊢
            exact (List.mem_filter.mp hp).2

/-- C7: every path in the changed_files of a returned GitDiffResult is
canonically inside the repository root: a path that exists on disk has a
canonicalization, the repository root has one, and the canonical path starts
with the canonical root (paths failing this, e.g. a symlink escaping the
root, or whose canonicalization errors, were excluded by the filter); a path
that does not exist on disk passes `validate_path_within_repo` untouched and
uncanonicalized, so it is passed through rather than rejected. -/
theorem get_changed_files_paths_within_root (env : GitEnv)
    (target : DiffTarget) (res : GitDiffResult) (tr : List (List (List Char)))
    (h : get_changed_files env target = (.ok res, tr)) :
    (∀ p ∈ res.changed_files, env.pathExists p = true →
        ∃ cp cr, env.canonicalize p = some cp ∧
          env.canonicalize res.repository_root = some cr ∧
          pathStartsWith cp cr = true) ∧
    (∀ p, env.pathExists p = false →
        validate_path_within_repo env p res.repository_root = true) := by
  constructor
  · intro p hp hex
    have hv := get_changed_files_ok_filter env target res tr h p hp
    unfold validate_path_within_repo at hv
    rw [hex] at hv
    simp only [Bool.true_eq_false, if_false] at hv
    cases hcp : env.canonicalize p with
    | none =>
      cases hcr : env.canonicalize res.repository_root <;>
        simp [hcp, hcr] at hv
    | some cp =>
      cases hcr : env.canonicalize res.repository_root with
      | none => simp [hcp, hcr] at hv
      | some cr =>
        rw [hcp, hcr] at hv
        exact ⟨cp, cr, rfl, rfl, hv⟩
  · intro p hpe
    simp [validate_path_within_repo, hpe]

/-- C7, witness: in an environment where the diff reports "a.rs" and "evil",
"evil" canonicalizes outside the root and is excluded, while the kept path
"/repo/a.rs" satisfies the canonical-prefix property; a nonexistent path
passes the validation untouched. -/
theorem get_changed_files_paths_within_root_witness :
    (exampleGitEnv.pathExists (strL "/repo/a.rs") = true →
      ∃ cp cr, exampleGitEnv.canonicalize (strL "/repo/a.rs") = some cp ∧
        exampleGitEnv.canonicalize (strL "/repo") = some cr ∧
        pathStartsWith cp cr = true) ∧
    validate_path_within_repo exampleGitEnv (strL "/ghost.rs") (strL "/repo")
      = true := by
  have h := get_changed_files_paths_within_root exampleGitEnv .WorkingTree
    ⟨[strL "/repo/a.rs"], strL "/repo", strL "unstaged changes"⟩
    [revParseArgs, [strL "diff", strL "--name-only"]] (by decide)
  exact ⟨fun hx => h.1 (strL "/repo/a.rs") (by decide) hx,
    h.2 (strL "/ghost.rs") (by decide)⟩

/-- C5, counterexample to the claim as stated.  Resolving
`Commit("; rm -rf /")` does fail with the invalid-reference error, but a
subprocess has already been spawned before that failure: `get_changed_files`
first resolves the repository root by spawning `git rev-parse --show-toplevel`
(git.rs line 84 calls `get_repository_root` before the `Commit` arm validates
the reference), so the spawn trace at the failure is nonempty. -/
theorem get_changed_files_invalid_ref_counterexample :
    (get_changed_files exampleGitEnv (.Commit (strL "; rm -rf /"))).1
      = .error .invalidRefChars ∧
    (get_changed_files exampleGitEnv (.Commit (strL "; rm -rf /"))).2
      = [revParseArgs] ∧
    revParseArgs ≠ [] := by
  exact ⟨by decide, by decide, by decide⟩

/-- C5, amended: for every reference rejected by the grammar, resolving
`Commit` with it (in a repository whose root query succeeds) fails with the
invalid-reference error, and the only subprocess spawned before that failure
is the repository-root query `git rev-parse --show-toplevel` — in particular
no diff subprocess is spawned and the unvalidated reference never reaches any
spawned command line. -/
theorem get_changed_files_invalid_ref_no_diff_spawn (env : GitEnv)
    (ref out : List Char) (e : GitError)
    (hroot : env.revParseToplevel = .exited true out)
    (hval : validate_git_ref ref = .error e) :
    get_changed_files env (.Commit ref) = (.error e, [revParseArgs]) := by
  simp [get_changed_files, get_repository_root, hroot, diffInvocation, hval]

/-- C5 amended, witness: the injection attempt "; rm -rf /" fails with the
invalid-characters error after only the repository-root query. -/
theorem get_changed_files_invalid_ref_no_diff_spawn_witness :
    validate_git_ref (strL "; rm -rf /") = .error .invalidRefChars ∧
    get_changed_files exampleGitEnv (.Commit (strL "; rm -rf /"))
      = (.error .invalidRefChars, [revParseArgs]) :=
  ⟨by decide,
   get_changed_files_invalid_ref_no_diff_spawn exampleGitEnv
     (strL "; rm -rf /") (strL "/repo\n") .invalidRefChars rfl (by decide)⟩

/-- C6, counterexample to the claim as stated.  The empty reference contains
no character outside the allowed set and does not start with '-', yet
`validate_git_ref` rejects it: the regex `^[a-zA-Z0-9_./@^~-]+$` requires at
least one character.  (Also note '-' itself belongs to the allowed set, so
"matches the allowed grammar" alone cannot imply success either.) -/
theorem validate_git_ref_counterexample :
    ([] : List Char).all allowedRefChar = true ∧
    ([] : List Char).head? ≠ some '-' ∧
    validate_git_ref [] = .error .invalidRefChars := by
  exact ⟨by decide, by decide, by decide⟩

/-- C6, amended: `validate_git_ref` succeeds exactly on the nonempty strings
over the allowed set `[A-Za-z0-9_./@^~-]` that do not start with '-'; it
fails on every string that starts with '-', contains a character outside the
set, or is empty.  It is a pure total function of the reference string (as
its type here shows: no I/O, no side effects). -/
theorem validate_git_ref_iff (r : List Char) :
    validate_git_ref r = .ok () ↔
      (r ≠ [] ∧ r.head? ≠ some '-' ∧ r.all allowedRefChar = true) := by
  cases r with
  | nil => simp [validate_git_ref]
  | cons c cs =>
    by_cases hc : c = '-'
    · subst hc; simp [validate_git_ref]
    · have h1 : ¬ ((c :: cs).head? = some '-') := by simp [hc]
      by_cases hall : (c :: cs).all allowedRefChar
      · simp [validate_git_ref, h1, hc, hall]
      · simp [validate_git_ref, h1, hc, hall]

/-- C8: filtering with an empty allow-list yields the empty sequence for
every input; with no allow-list (the default set), "foo.rs" is retained,
"foo.bin" is dropped, and the case-mismatched "foo.RS" is retained
(comparison is ASCII-case-insensitive), for any filesystem on which those
paths exist; and a path with no extension is never in the output. -/
theorem filter_analyzable_files_props :
    (∀ (env : GitEnv) (files : List (List Char)),
        filter_analyzable_files env files (some []) = []) ∧
    (∀ env : GitEnv,
        env.pathExists (strL "foo.rs") = true →
        env.pathExists (strL "foo.RS") = true →
        filter_analyzable_files env
            [strL "foo.rs", strL "foo.bin", strL "foo.RS"] none
          = [strL "foo.rs", strL "foo.RS"]) ∧
    (∀ (env : GitEnv) (files : List (List Char))
        (exts : Option (List (List Char))) (p : List Char),
        extension p = none → p ∉ filter_analyzable_files env files exts) := by
  refine ⟨?_, ?_, ?_⟩
  · intro env files
    have hpred : ∀ q : List Char,
        (match extension q with
         | some e => ([] : List (List Char)).any fun x => eqIgnoreAsciiCase x e
         | none => false) = false := by
      intro q; cases extension q <;> simp
    simp only [filter_analyzable_files, Option.getD_some]
    rw [List.filter_congr (fun q _ => hpred q)]
    simp
  · intro env h1 h2
    have hstep : filter_analyzable_files env
        [strL "foo.rs", strL "foo.bin", strL "foo.RS"] none
        = ([strL "foo.rs", strL "foo.RS"]).filter fun p => env.pathExists p := by
      rfl
    rw [hstep]
    simp [List.filter_cons, h1, h2]
  · intro env files exts p hp hmem
    simp only [filter_analyzable_files] at hmem
    have hm2 := (List.mem_filter.mp hmem).1
    have hpred := (List.mem_filter.mp hm2).2
    rw [hp] at hpred
    simp at hpred

/-- C8, witness: on a filesystem where every path exists, the empty
allow-list yields nothing, the default set keeps "foo.rs" and "foo.RS" and
drops "foo.bin", and the extensionless "noext" is never kept. -/
theorem filter_analyzable_files_props_witness :
    filter_analyzable_files exampleFsEnv [strL "foo.rs"] (some []) = [] ∧
    filter_analyzable_files exampleFsEnv
        [strL "foo.rs", strL "foo.bin", strL "foo.RS"] none
      = [strL "foo.rs", strL "foo.RS"] ∧
    strL "noext" ∉ filter_analyzable_files exampleFsEnv [strL "noext"] none :=
  ⟨filter_analyzable_files_props.1 exampleFsEnv [strL "foo.rs"],
   filter_analyzable_files_props.2.1 exampleFsEnv (by decide) (by decide),
   filter_analyzable_files_props.2.2 exampleFsEnv [strL "noext"] none
     (strL "noext") (by decide)⟩

-- ===== claim theorems: ApiClient::new =================================

/-- C9, counterexample to the claim as stated.  The well-formed URL
"ftp://example.com" has a non-loopback host and a scheme that is not the
encrypted transport, yet `ApiClient::new` accepts it: the source only rejects
the exact scheme "http" (api_client.rs line 23), not every non-https
scheme. -/
theorem apiClient_new_counterexample :
    apiClient_new (some ⟨strL "ftp", some (strL "example.com")⟩) = .ok () ∧
    strL "ftp" ≠ strL "https" ∧
    strL "example.com" ≠ strL "localhost" ∧
    strL "example.com" ≠ strL "127.0.0.1" ∧
    strL "example.com" ≠ strL "::1" := by
  exact ⟨by decide, by decide, by decide, by decide, by decide⟩

/-- C9, amended: `ApiClient::new` fails when the URL does not parse; when it
parses, it fails — necessarily with the insecure-endpoint error — exactly
when the scheme is "http" and the host string is none of "localhost",
"127.0.0.1", "::1"; every other scheme (https, but also e.g. ftp) is accepted
for any host, and scheme "http" is accepted on those three host strings. -/
theorem apiClient_new_characterization :
    apiClient_new none = .error .invalidUrl ∧
    (∀ u : ParsedUrl,
        apiClient_new (some u) = .error .insecureEndpoint ↔
          (u.scheme = strL "http" ∧ u.host.getD [] ≠ strL "localhost" ∧
           u.host.getD [] ≠ strL "127.0.0.1" ∧ u.host.getD [] ≠ strL "::1")) ∧
    (∀ u : ParsedUrl, apiClient_new (some u) = .ok ()
        ∨ apiClient_new (some u) = .error .insecureEndpoint) := by
  have hiff : ∀ u : ParsedUrl,
      (u.scheme == strL "http"
        && !(u.host.getD [] == strL "localhost"
             || u.host.getD [] == strL "127.0.0.1"
             || u.host.getD [] == strL "::1")) = true
        ↔ (u.scheme = strL "http" ∧ u.host.getD [] ≠ strL "localhost" ∧
           u.host.getD [] ≠ strL "127.0.0.1" ∧ u.host.getD [] ≠ strL "::1") := by
    intro u
    simp only [Bool.and_eq_true, beq_iff_eq, Bool.not_eq_true',
      Bool.or_eq_false_iff, beq_eq_false_iff_ne]
    tauto
  refine ⟨rfl, ?_, ?_⟩
  · intro u
    simp only [apiClient_new]
    constructor
    · intro h
      by_cases hcond : (u.scheme == strL "http"
          && !(u.host.getD [] == strL "localhost"
               || u.host.getD [] == strL "127.0.0.1"
               || u.host.getD [] == strL "::1")) = true
      · exact (hiff u).mp hcond
      · rw [if_neg hcond] at h
        exact absurd h (by simp)
    · intro hr
      rw [if_pos ((hiff u).mpr hr)]
  · intro u
    simp only [apiClient_new]
    by_cases hcond : (u.scheme == strL "http"
        && !(u.host.getD [] == strL "localhost"
             || u.host.getD [] == strL "127.0.0.1"
             || u.host.getD [] == strL "::1")) = true
    · rw [if_pos hcond]; exact Or.inr rfl
    · rw [if_neg hcond]; exact Or.inl rfl

/-- C6 amended, witness: the characterization applied at the concrete
reference "main". -/
theorem validate_git_ref_iff_witness :
    validate_git_ref (strL "main") = .ok () ↔
      (strL "main" ≠ [] ∧ (strL "main").head? ≠ some '-' ∧
       (strL "main").all allowedRefChar = true) :=
  validate_git_ref_iff (strL "main")

/-- C9 amended, witness: the characterization applied at the concrete parse
of "http://localhost:5000" (scheme "http", host "localhost"). -/
theorem apiClient_new_characterization_witness :
    apiClient_new (some ⟨strL "http", some (strL "localhost")⟩) = .ok () ∨
    apiClient_new (some ⟨strL "http", some (strL "localhost")⟩)
      = .error .insecureEndpoint :=
  apiClient_new_characterization.2.2 ⟨strL "http", some (strL "localhost")⟩
